import Mathlib

/-!
Verification of the `catweb` image-to-colored-text converter (`src/ascii.py`).

The program is a linear pipeline: load an image, optionally flatten
transparency onto a background color, resize, walk a 2D text grid sampling
colors, and serialize the glyph grid to a text file.  We embed the pipeline
shallowly: Python floats become exact rationals `ℚ`, Python strings become
`List Char`, a raised exception becomes `Except.error`, and the two
image-library/file-system effects that claims talk about (resizing, writing
the output) are recorded in an explicit event trace.

Mathlib's field operations on `ℚ` are backed by `@[irreducible]` core
functions, which blocks `decide`-style evaluation on concrete inputs.  The
definitions below therefore use kernel-computable arithmetic helpers `qmul`,
`qsub`, `qdiv` built on `mkRat`/`Rat.divInt`, each proved equal to the
corresponding field operation (`qmul_eq`, `qsub_eq`, `qdiv_eq`), so the
theorems can be stated with the ordinary operations.
-/

namespace Catweb

/-- Kernel-computable multiplication on `ℚ`; equals `a * b` (`qmul_eq`). -/
def qmul (a b : ℚ) : ℚ := mkRat (a.num * b.num) (a.den * b.den)

/-- Kernel-computable subtraction on `ℚ`; equals `a - b` (`qsub_eq`). -/
def qsub (a b : ℚ) : ℚ := mkRat (a.num * b.den - b.num * a.den) (a.den * b.den)

/-- Kernel-computable division on `ℚ`; equals `a / b` (`qdiv_eq`). -/
def qdiv (a b : ℚ) : ℚ := Rat.divInt (a.num * b.den) (a.den * b.num)

/-- Computable floor of a rational; equals `⌊q⌋` (`pyfloor_eq`). -/
def pyfloor (q : ℚ) : ℤ := q.num / (q.den : ℤ)

/-- Python `int(x)` applied to a float: truncation toward zero. -/
def pytrunc (q : ℚ) : ℤ :=
  if q < 0 then -(pyfloor (-q)) else pyfloor q

/-- Python 3 `round(x)` on a float with no digit argument: round half to
even. -/
def pyround (q : ℚ) : ℤ :=
  if qsub q (pyfloor q : ℚ) < mkRat 1 2 then pyfloor q
  else if mkRat 1 2 < qsub q (pyfloor q : ℚ) then pyfloor q + 1
  else if pyfloor q % 2 = 0 then pyfloor q else pyfloor q + 1

/-- Line 64 of ascii.py: `new_w = max(1, int(orig_w * scale))` with
`scale = scale_percent / 100.0`. -/
def new_w (orig_w : ℕ) (scale_percent : ℚ) : ℤ :=
  max 1 (pytrunc (qmul (orig_w : ℚ) (qdiv scale_percent 100)))

/-- Line 65 of ascii.py: `new_h = max(1, int(orig_h * scale))`. -/
def new_h (orig_h : ℕ) (scale_percent : ℚ) : ℤ :=
  max 1 (pytrunc (qmul (orig_h : ℚ) (qdiv scale_percent 100)))

/-- Line 74 of ascii.py: `rendered_h = max(1, int(new_h * aspect_ratio))`. -/
def rendered_h (nh : ℤ) ( aspect_ratio : ℚ) : ℤ :=
  max 1 (pytrunc (qmul (nh : ℚ) aspect_ratio))

/-- Line 85 of ascii.py:
`mapped_y = min(new_h - 1, max(0, int(round(y / aspect_ratio))))`.
Meaningful when the aspect ratio is nonzero; the pipeline raises a
`ZeroDivisionError` before evaluating this when it is zero. -/
def mapped_y ( aspect_ratio : ℚ) (nh : ℤ) (y : ℕ) : ℤ :=
  min (nh - 1) (max 0 (pyround (qdiv (y : ℚ) aspect_ratio)))

/-- The 22 characters Python accepts as hexadecimal digits. -/
def hexDigits : List Char := ("0123456789abcdefABCDEF").toList

/-- The 16 lowercase hexadecimal digit characters. -/
def lowerHexDigits : List Char := ("0123456789abcdef").toList

/-- Python `s.strip()`: drop whitespace from both ends (modelled with
`Char.isWhitespace`, which covers the ASCII whitespace relevant here;
Python strings are embedded as `List Char` throughout). -/
def pystrip (l : List Char) : List Char :=
  ((l.dropWhile Char.isWhitespace).reverse.dropWhile Char.isWhitespace).reverse

/-- Lines 21-22 of ascii.py: `if s.startswith("#"): s = s[1:]`. -/
def dropHash (l : List Char) : List Char :=
  if l.head? = some '#' then l.tail else l

/-- Line 26 of ascii.py: `"".join(2*c for c in s)` — duplicate every
character. -/
def expand3 : List Char → List Char
  | [] => []
  | c :: cs => c :: c :: expand3 cs

/-- Lines 19-27 of ascii.py, `ensure_hex_color`: strip, drop a leading `#`,
validate the length (3 or 6) only, expand a 3-digit form by duplication, and
return `"#" + s.lower()`.  A raised `ValueError` becomes `Except.error`. -/
def ensure_hex_color (s : List Char) : Except String (List Char) :=
  let s1 := dropHash (pystrip s)
  if s1.length = 3 ∨ s1.length = 6 then
    Except.ok ('#' :: (if s1.length = 3 then expand3 s1 else s1).map Char.toLower)
  else
    Except.error ("Background color must be hex like #fff or #ffffff")

/-- The PIL pixel modes distinguished by the program (ascii.py line 31). -/
inductive PILMode
  | RGB | RGBA | LA | P | L
deriving DecidableEq

/-- A loaded PIL image.  `px` is the RGBA view of the pixel data (what
`img.convert("RGBA")` exposes); `transparencyInfo` models
`"transparency" in img.info`. -/
structure PILImage where
  mode : PILMode
  transparencyInfo : Bool
  width : ℕ
  height : ℕ
  px : ℕ → ℕ → ℕ × ℕ × ℕ × ℕ

/-- An opaque 3-channel image. -/
structure RGBImage where
  width : ℕ
  height : ℕ
  pixel : ℕ → ℕ → ℕ × ℕ × ℕ

/-- Line 31 of ascii.py: `img.mode in ("RGBA", "LA") or (img.mode == "P"
and "transparency" in img.info)`. -/
def hasAlpha (img : PILImage) : Bool :=
  (img.mode == PILMode.RGBA) || (img.mode == PILMode.LA) ||
    ((img.mode == PILMode.P) && img.transparencyInfo)

/-- Value of one hexadecimal digit character, if any. -/
def hexVal (c : Char) : Option ℕ :=
  if c.isDigit then some (c.toNat - 48)
  else if 'a' ≤ c ∧ c ≤ 'f' then some (c.toNat - 97 + 10)
  else if 'A' ≤ c ∧ c ≤ 'F' then some (c.toNat - 65 + 10)
  else none

/-- Helper of `parseHex`: accumulate digit values left to right, raising on
the first non-hex character. -/
def parseHexAux : List Char → ℕ → Except String ℕ
  | [], acc => Except.ok acc
  | c :: cs, acc =>
    match hexVal c with
    | some v => parseHexAux cs (16 * acc + v)
    | none => Except.error ("invalid literal for int() with base 16")

/-- Python `int(s, 16)`: parse a hexadecimal string, `ValueError` on a
non-hex character or an empty string. -/
def parseHex (l : List Char) : Except String ℕ :=
  if l.isEmpty then Except.error ("invalid literal for int() with base 16")
  else parseHexAux l 0

/-- Modelled from the spec: PIL's `Image.alpha_composite` over an opaque
background (library code, not part of this repository) blends per channel as
`result = src*alpha + bg*(1-alpha)` with straight alpha `a/255`; the integer
result is the floor of that exact value (`blendByte_eq_floor`). -/
def blendByte (s b a : ℕ) : ℕ := (s * a + b * (255 - a)) / 255

/-- Lines 35 and 56 of ascii.py: `img.convert("RGB")` drops any
alpha/palette information without blending. -/
def convertRGB (img : PILImage) : RGBImage :=
  { width := img.width, height := img.height,
    pixel := fun x y =>
      let p := img.px x y
      (p.1, p.2.1, p.2.2.1) }

/-- Lines 29-35 of ascii.py, `composite_over_bg`: if the image carries
transparency, parse `bg_hex[1:3]`, `bg_hex[3:5]`, `bg_hex[5:7]` with
`int(., 16)` and alpha-blend over the solid background; otherwise convert
directly to RGB. -/
def composite_over_bg (img : PILImage) (bg_hex : List Char) :
    Except String RGBImage :=
  if hasAlpha img then
    match parseHex ((bg_hex.drop 1).take 2) with
    | Except.error e => Except.error e
    | Except.ok r =>
      match parseHex ((bg_hex.drop 3).take 2) with
      | Except.error e => Except.error e
      | Except.ok g =>
        match parseHex ((bg_hex.drop 5).take 2) with
        | Except.error e => Except.error e
        | Except.ok b =>
          Except.ok
            { width := img.width, height := img.height,
              pixel := fun x y =>
                let p := img.px x y
                (blendByte p.1 r p.2.2.2, blendByte p.2.1 g p.2.2.2,
                  blendByte p.2.2.1 b p.2.2.2) }
  else Except.ok (convertRGB img)

/-- Modelled from the spec: PIL's `Image.resize` (library code, not part of
this repository) returns an image of exactly the requested dimensions; the
Lanczos resampling kernel itself is abstracted by proportional nearest
sampling, on which no claim depends. -/
def resizeRGB (img : RGBImage) (w h : ℕ) : RGBImage :=
  { width := w, height := h,
    pixel := fun x y => img.pixel (x * img.width / w) (y * img.height / h) }

/-- One lowercase hex digit for `n % 16`. -/
def hexChar (n : ℕ) : Char := lowerHexDigits.getD (n % 16) '0'

/-- Python `f"{v:02x}"` for a channel value `v < 256`: two lowercase hex
digits. -/
def toHexByte (n : ℕ) : List Char := [hexChar (n / 16), hexChar n]

/-- Lines 89-93 of ascii.py, one glyph cell: in rich-text mode the glyph is
wrapped in `<font color="#rrggbb">...</font>`, else it stands alone. -/
def renderCell (rgb : ℕ × ℕ × ℕ) (glyph : List Char) (rich : Bool) :
    List Char :=
  if rich then
    ("<font color=\"#").toList ++ toHexByte rgb.1 ++ toHexByte rgb.2.1 ++
      toHexByte rgb.2.2 ++ ("\">").toList ++ glyph ++ ("</font>").toList
  else glyph

/-- Lines 86-94 of ascii.py, one output row: `new_w` cells sampled at
`(x, mapped_y)`, concatenated. -/
def renderRow (cimg : RGBImage) (nw : ℕ) (my : ℕ) (glyph : List Char)
    (rich : Bool) : List Char :=
  ((List.range nw).map (fun x => renderCell (cimg.pixel x my) glyph rich)).flatten

/-- Body of the row loop (ascii.py lines 82-94).  The division
`y / aspect_ratio` at line 85 raises `ZeroDivisionError` when the aspect
ratio is zero. -/
def renderRowM (ar : ℚ) (nhZ : ℤ) (cimg : RGBImage) (nw : ℕ)
    (glyph : List Char) (rich : Bool) (y : ℕ) : Except String (List Char) :=
  if ar = 0 then Except.error ("float division by zero")
  else Except.ok (renderRow cimg nw (mapped_y ar nhZ y).toNat glyph rich)

/-- The `for y in range(rendered_h)` loop accumulating `lines`; the first
raised exception aborts the loop. -/
def forRows (f : ℕ → Except String (List Char)) :
    List ℕ → Except String (List (List Char))
  | [] => Except.ok []
  | y :: ys =>
    match f y with
    | Except.error e => Except.error e
    | Except.ok row =>
      match forRows f ys with
      | Except.error e => Except.error e
      | Except.ok rows => Except.ok (row :: rows)

/-- Python `sep.join(parts)`. -/
def pyjoin (sep : List Char) : List (List Char) → List Char
  | [] => []
  | [l] => l
  | l :: ls => l ++ sep ++ pyjoin sep ls

/-- The observable image-library/file-system effects the claims mention. -/
inductive Event
  | resize | write
deriving DecidableEq

/-- Lines 52-56 of `image_to_color_text`: normalize the background color and
composite, or convert directly to RGB when `background is None`. -/
def step_bg (img : PILImage) (background : Option (List Char)) :
    Except String RGBImage :=
  match background with
  | some bgs =>
    match ensure_hex_color bgs with
    | Except.error e => Except.error e
    | Except.ok bg_hex => composite_over_bg img bg_hex
  | none => Except.ok (convertRGB img)

/-- Lines 37-113 of ascii.py, `image_to_color_text`: the full pipeline.
Returns the text that is written to the output file (or the first raised
error) together with the trace of resize/write effects that happened before
returning.  The grayscale image of line 79 is unused downstream; only its
resize effect is recorded (second `Event.resize`). -/
def image_to_color_text (img : PILImage) (scale_percent aspect_ratio : ℚ)
    (glyph : List Char) (rich_text : Bool) (background : Option (List Char)) :
    Except String (List Char) × List Event :=
  match step_bg img background with
  | Except.error e => (Except.error e, [])
  | Except.ok img2 =>
    if scale_percent ≤ 0 then (Except.error ("scale_percent must be > 0"), [])
    else
      let nhZ := new_h img2.height scale_percent
      let nw := (new_w img2.width scale_percent).toNat
      let color_img := resizeRGB img2 nw nhZ.toNat
      let rh := (rendered_h nhZ aspect_ratio).toNat
      match forRows (renderRowM aspect_ratio nhZ color_img nw glyph rich_text)
          (List.range rh) with
      | Except.error e => (Except.error e, [Event.resize, Event.resize])
      | Except.ok lines =>
        (Except.ok (pyjoin ['\n'] lines ++ ['\n']),
          [Event.resize, Event.resize, Event.write])

/-- Concrete 1×2 opaque RGB test image used in closed witness and
counterexample theorems. -/
def sampleOpaque : PILImage :=
  ⟨PILMode.RGB, false, 1, 2, fun _ _ => (10, 20, 30, 255)⟩

/-- A 2×1 RGBA image whose pixels are fully transparent red. -/
def sampleTransparent : PILImage :=
  ⟨PILMode.RGBA, false, 2, 1, fun _ _ => (255, 0, 0, 0)⟩

/-- A 1×1 RGBA image whose pixel is fully opaque red. -/
def sampleOpaqueRed : PILImage :=
  ⟨PILMode.RGBA, false, 1, 1, fun _ _ => (255, 0, 0, 255)⟩

/-- The composite of `sampleTransparent` over `#000000`. -/
def compTransparent : RGBImage :=
  { width := sampleTransparent.width, height := sampleTransparent.height,
    pixel := fun x y =>
      let p := sampleTransparent.px x y
      (blendByte p.1 0 p.2.2.2, blendByte p.2.1 0 p.2.2.2,
        blendByte p.2.2.1 0 p.2.2.2) }

/-- The composite of `sampleOpaqueRed` over `#123456`. -/
def compOpaqueRed : RGBImage :=
  { width := sampleOpaqueRed.width, height := sampleOpaqueRed.height,
    pixel := fun x y =>
      let p := sampleOpaqueRed.px x y
      (blendByte p.1 18 p.2.2.2, blendByte p.2.1 52 p.2.2.2,
        blendByte p.2.2.1 86 p.2.2.2) }

/-! ### Theorems -/

theorem qmul_eq (a b : ℚ) : qmul a b = a * b := by
  rw [qmul, Rat.mkRat_eq_divInt]
  push_cast
  rw [← Rat.divInt_mul_divInt', Rat.num_divInt_den, Rat.num_divInt_den]

theorem qsub_eq (a b : ℚ) : qsub a b = a - b := (Rat.sub_def' a b).symm

theorem qdiv_eq (a b : ℚ) : qdiv a b = a / b := (Rat.div_def' a b).symm

theorem pyfloor_eq (q : ℚ) : pyfloor q = ⌊q⌋ := (Rat.floor_def).symm

theorem half_eq : (mkRat 1 2 : ℚ) = 1/2 := by
  rw [Rat.mkRat_eq_div]
  norm_num

/-- Whatever the tie-breaking, `pyround` returns the floor or the floor plus
one. -/
theorem pyround_eq_floor_or_ceil (q : ℚ) :
    pyround q = ⌊q⌋ ∨ pyround q = ⌊q⌋ + 1 := by
  unfold pyround
  rw [pyfloor_eq]
  split
  · exact Or.inl rfl
  · split
    · exact Or.inr rfl
    · split
      · exact Or.inl rfl
      · exact Or.inr rfl

theorem pyround_nonneg {q : ℚ} (h : 0 ≤ q) : 0 ≤ pyround q := by
  have hf : (0 : ℤ) ≤ ⌊q⌋ := Int.floor_nonneg.mpr h
  rcases pyround_eq_floor_or_ceil q with he | he <;> omega

theorem pytrunc_of_nonneg {q : ℚ} (h : 0 ≤ q) : pytrunc q = ⌊q⌋ := by
  simp [pytrunc, not_lt.mpr h, pyfloor_eq]

theorem pytrunc_eq_ceil_of_neg {q : ℚ} (h : q < 0) : pytrunc q = ⌈q⌉ := by
  simp only [pytrunc, if_pos h, pyfloor_eq, Int.floor_neg, neg_neg]

theorem pytrunc_nonpos_of_neg {q : ℚ} (h : q < 0) : pytrunc q ≤ 0 := by
  rw [pytrunc_eq_ceil_of_neg h]
  exact Int.ceil_le.2 (by exact_mod_cast h.le)

/-- After taking `max 1 _`, truncation toward zero agrees with `floor`: they
can differ only on negative non-integers, where both are `≤ 0`. -/
theorem max_one_pytrunc_eq_max_one_floor (q : ℚ) :
    max 1 (pytrunc q) = max 1 ⌊q⌋ := by
  rcases le_or_lt 0 q with h | h
  · rw [pytrunc_of_nonneg h]
  · have h1 : pytrunc q ≤ 0 := pytrunc_nonpos_of_neg h
    have h2 : ⌊q⌋ ≤ 0 := Int.floor_nonpos h.le
    omega

theorem one_le_new_w (w : ℕ) (sp : ℚ) : 1 ≤ new_w w sp := le_max_left _ _

theorem one_le_new_h (h : ℕ) (sp : ℚ) : 1 ≤ new_h h sp := le_max_left _ _

theorem one_le_rendered_h (nh : ℤ) (ar : ℚ) : 1 ≤ rendered_h nh ar :=
  le_max_left _ _

theorem mem_hexDigits_toLower {c : Char} (h : c ∈ hexDigits) :
    c.toLower ∈ lowerHexDigits := by
  have hall : ∀ x ∈ hexDigits, x.toLower ∈ lowerHexDigits := by decide
  exact hall c h

theorem mem_hexDigits_not_whitespace {c : Char} (h : c ∈ hexDigits) :
    c.isWhitespace = false := by
  have hall : ∀ x ∈ hexDigits, x.isWhitespace = false := by decide
  exact hall c h

theorem mem_hexDigits_ne_hash {c : Char} (h : c ∈ hexDigits) : c ≠ '#' := by
  have hall : ∀ x ∈ hexDigits, x ≠ '#' := by decide
  exact hall c h

theorem dropWhile_eq_self_of_forall {p : Char → Bool} {l : List Char}
    (h : ∀ c ∈ l, p c = false) : l.dropWhile p = l := by
  cases l with
  | nil => rfl
  | cons a as => simp [List.dropWhile_cons, h a (List.mem_cons_self a as)]

theorem pystrip_eq_self {l : List Char} (h : ∀ c ∈ l, c.isWhitespace = false) :
    pystrip l = l := by
  unfold pystrip
  rw [dropWhile_eq_self_of_forall h]
  rw [dropWhile_eq_self_of_forall (fun c hc => h c (List.mem_reverse.mp hc))]
  exact List.reverse_reverse l

theorem expand3_length (l : List Char) : (expand3 l).length = 2 * l.length := by
  induction l with
  | nil => rfl
  | cons c cs ih => simp [expand3, ih]; omega

theorem mem_expand3 {c : Char} {l : List Char} (h : c ∈ expand3 l) : c ∈ l := by
  induction l with
  | nil => simp [expand3] at h
  | cons a as ih =>
    simp only [expand3, List.mem_cons] at h ⊢
    rcases h with h | h | h
    · exact Or.inl h
    · exact Or.inl h
    · exact Or.inr (ih h)

theorem mapped_y_bounds (ar : ℚ) (nh : ℤ) (y : ℕ) (h1 : 1 ≤ nh) :
    0 ≤ mapped_y ar nh y ∧ mapped_y ar nh y ≤ nh - 1 := by
  unfold mapped_y
  generalize pyround (qdiv (y : ℚ) ar) = r
  omega

/-- C1: with `scale = scale_percent / 100`, the grid dimensions satisfy
`new_w = max(1, floor(orig_w*scale))`, `new_h = max(1, floor(orig_h*scale))`
and `rendered_h = max(1, floor(new_h*aspect_ratio))`; Python's `int()`
truncation coincides with `floor` under the `max` with 1. -/
theorem c1_grid_dimensions (w h : ℕ) (sp ar : ℚ) (hsp : 0 < sp) :
    new_w w sp = max 1 ⌊(w : ℚ) * (sp / 100)⌋ ∧
    new_h h sp = max 1 ⌊(h : ℚ) * (sp / 100)⌋ ∧
    ∀ nh : ℤ, rendered_h nh ar = max 1 ⌊(nh : ℚ) * ar⌋ := by
  have key : ∀ n : ℕ, max 1 (pytrunc (qmul (n : ℚ) (qdiv sp 100))) =
      max 1 ⌊(n : ℚ) * (sp / 100)⌋ := by
    intro n
    rw [qmul_eq, qdiv_eq,
      pytrunc_of_nonneg (mul_nonneg (Nat.cast_nonneg n) (by positivity))]
  refine ⟨?_, ?_, fun nh => ?_⟩
  · rw [new_w]; exact key w
  · rw [new_h]; exact key h
  · rw [rendered_h, qmul_eq, max_one_pytrunc_eq_max_one_floor]

/-- Witness for C1 at a 10×7 image, scale 25, aspect 1/2. -/
theorem c1_witness :
    (0 : ℚ) < 25 ∧
    (new_w 10 25 = max 1 ⌊(10 : ℚ) * ((25 : ℚ) / 100)⌋ ∧
     new_h 7 25 = max 1 ⌊(7 : ℚ) * ((25 : ℚ) / 100)⌋ ∧
     ∀ nh : ℤ, rendered_h nh (mkRat 1 2) = max 1 ⌊(nh : ℚ) * mkRat 1 2⌋) :=
  ⟨by decide, c1_grid_dimensions 10 7 25 (mkRat 1 2) (by decide)⟩

/-- C2 counterexample: with aspect ratio `1/2` (so between 0 and 1) and
`new_h = 10 ≥ 1`, `rendered_h = 5` and the largest output row `y = 4` maps
to source row 8, not to `new_h - 1 = 9` as the claim states. -/
theorem c2_counterexample :
    (0 : ℚ) < 1/2 ∧ (1/2 : ℚ) < 1 ∧ (1 : ℤ) ≤ 10 ∧
    rendered_h 10 (1/2) = 5 ∧ mapped_y (1/2) 10 (5 - 1) = 8 ∧
    ¬ mapped_y (1/2) 10 (5 - 1) = 10 - 1 := by
  have h : (1/2 : ℚ) = mkRat 1 2 := half_eq.symm
  refine ⟨by norm_num, by norm_num, by norm_num, ?_, ?_, ?_⟩
  · rw [h]; decide
  · rw [h]; decide
  · rw [h]; decide

/-- C2 (amended): for an aspect ratio strictly between 0 and 1 and
`new_h ≥ 1`, the largest output row `y = rendered_h - 1` maps under the
clamp to a source row in `[0, new_h - 1]` — never out of bounds — though not
necessarily to `new_h - 1` itself. -/
theorem c2_amended_largest_row_in_bounds (ar : ℚ) (nh : ℤ)
    (h0 : 0 < ar) (h1 : ar < 1) (hnh : 1 ≤ nh) :
    0 ≤ mapped_y ar nh ((rendered_h nh ar - 1).toNat) ∧
    mapped_y ar nh ((rendered_h nh ar - 1).toNat) ≤ nh - 1 :=
  mapped_y_bounds ar nh _ hnh

/-- Witness for the amended C2 at aspect `1/2`, `new_h = 10`. -/
theorem c2_witness :
    ((0 : ℚ) < mkRat 1 2 ∧ (mkRat 1 2 : ℚ) < 1 ∧ (1 : ℤ) ≤ 10) ∧
    (0 ≤ mapped_y (mkRat 1 2) 10 ((rendered_h 10 (mkRat 1 2) - 1).toNat) ∧
     mapped_y (mkRat 1 2) 10 ((rendered_h 10 (mkRat 1 2) - 1).toNat) ≤ 10 - 1) :=
  ⟨⟨by decide, by decide, by decide⟩,
   c2_amended_largest_row_in_bounds (mkRat 1 2) 10 (by decide) (by decide)
     (by decide)⟩

/-- C3: for every output row `y < rendered_h` and positive aspect ratio, the
computed source row `mapped_y = min(new_h - 1, max(0, round(y/ar)))` lies in
`[0, new_h - 1]`, so every color sample reads an in-bounds row of the
color-sampling image. -/
theorem c3_mapped_y_in_bounds (h : ℕ) (sp ar : ℚ) (y : ℕ) (har : 0 < ar)
    (hy : (y : ℤ) < rendered_h (new_h h sp) ar) :
    0 ≤ mapped_y ar (new_h h sp) y ∧
    mapped_y ar (new_h h sp) y ≤ new_h h sp - 1 :=
  mapped_y_bounds ar (new_h h sp) y (one_le_new_h h sp)

/-- Witness for C3 at row 0, scale 25, aspect `1/2`, height 10. -/
theorem c3_witness :
    ((0 : ℚ) < mkRat 1 2 ∧ ((0 : ℕ) : ℤ) < rendered_h (new_h 10 25) (mkRat 1 2)) ∧
    (0 ≤ mapped_y (mkRat 1 2) (new_h 10 25) 0 ∧
     mapped_y (mkRat 1 2) (new_h 10 25) 0 ≤ new_h 10 25 - 1) :=
  ⟨⟨by decide, by decide⟩,
   c3_mapped_y_in_bounds 10 25 (mkRat 1 2) 0 (by decide) (by decide)⟩

/-- Normalization succeeds exactly on stripped length 3 or 6. -/
theorem ensure_hex_color_isOk_iff (s : List Char) :
    (ensure_hex_color s).isOk = true ↔
      ((dropHash (pystrip s)).length = 3 ∨ (dropHash (pystrip s)).length = 6) := by
  simp only [ensure_hex_color]
  split
  · next hc => exact iff_of_true rfl hc
  · next hc => exact iff_of_false (by simp [Except.isOk, Except.toBool]) hc

/-- C4: for every input that, after stripping an optional leading `#`,
consists of 3 or 6 hex digits, normalization returns `#` followed by 6
lowercase hex digits (7 characters total); a 3-digit form expands each digit
by duplication, so `#abc` normalizes to `#aabbcc`. -/
theorem c4_hex_normalization :
    (∀ t : List Char, (∀ c ∈ t, c ∈ hexDigits) →
      t.length = 3 ∨ t.length = 6 →
      ∀ s : List Char, s = t ∨ s = '#' :: t →
      ∃ r, ensure_hex_color s = Except.ok r ∧ r.length = 7 ∧
        r.head? = some '#' ∧ ∀ c ∈ r.tail, c ∈ lowerHexDigits) ∧
    ensure_hex_color ('#' :: ['a','b','c']) =
      Except.ok ('#' :: ['a','a','b','b','c','c']) := by
  constructor
  · intro t ht hlen s hs
    have hw : ∀ c ∈ s, c.isWhitespace = false := by
      rcases hs with rfl | rfl
      · exact fun c hc => mem_hexDigits_not_whitespace (ht c hc)
      · intro c hc
        rcases List.mem_cons.mp hc with rfl | hc
        · decide
        · exact mem_hexDigits_not_whitespace (ht c hc)
    have hdrop : dropHash (pystrip s) = t := by
      rw [pystrip_eq_self hw]
      rcases hs with h | h
      · rw [h]
        cases t with
        | nil => simp at hlen
        | cons a as =>
          have ha : a ≠ '#' := mem_hexDigits_ne_hash (ht a (List.mem_cons_self a as))
          simp [dropHash, ha]
      · rw [h]
        simp [dropHash]
    simp only [ensure_hex_color]
    rw [hdrop]
    rcases hlen with h3 | h6
    · rw [if_pos (Or.inl h3), if_pos h3]
      refine ⟨_, rfl, ?_, rfl, ?_⟩
      · simp [List.length_map, expand3_length, h3]
      · intro c hc
        rcases List.mem_map.mp hc with ⟨c0, hc0, rfl⟩
        exact mem_hexDigits_toLower (ht c0 (mem_expand3 hc0))
    · have h3' : t.length ≠ 3 := by omega
      rw [if_pos (Or.inr h6), if_neg h3']
      refine ⟨_, rfl, ?_, rfl, ?_⟩
      · simp [List.length_map, h6]
      · intro c hc
        rcases List.mem_map.mp hc with ⟨c0, hc0, rfl⟩
        exact mem_hexDigits_toLower (ht c0 hc0)
  · rfl

/-- Witness for C4 at the input `abc`. -/
theorem c4_witness :
    ∃ r, ensure_hex_color ['a','b','c'] = Except.ok r ∧ r.length = 7 ∧
      r.head? = some '#' ∧ ∀ c ∈ r.tail, c ∈ lowerHexDigits :=
  c4_hex_normalization.1 ['a','b','c'] (by decide) (by decide)
    ['a','b','c'] (Or.inl rfl)

/-- C5: normalization raises exactly when the length after stripping an
optional leading `#` is neither 3 nor 6 — it raises in no other length
case. -/
theorem c5_length_validation (s : List Char) :
    (∃ e, ensure_hex_color s = Except.error e) ↔
      ¬ ((dropHash (pystrip s)).length = 3 ∨
         (dropHash (pystrip s)).length = 6) := by
  rw [← ensure_hex_color_isOk_iff]
  cases h : ensure_hex_color s with
  | ok r => simp [Except.isOk, Except.toBool]
  | error e => simp [Except.isOk, Except.toBool]

/-- C6: for a non-positive scale percentage the pipeline fails (with a
`ValueError`) before any resize happens and before any output is written:
the event trace contains neither a resize nor a write. -/
theorem c6_scale_validation (img : PILImage) (sp ar : ℚ) (glyph : List Char)
    (rich : Bool) (bg : Option (List Char)) (hsp : sp ≤ 0) :
    (image_to_color_text img sp ar glyph rich bg).1.isOk = false ∧
    Event.resize ∉ (image_to_color_text img sp ar glyph rich bg).2 ∧
    Event.write ∉ (image_to_color_text img sp ar glyph rich bg).2 := by
  unfold image_to_color_text
  cases hstep : step_bg img bg with
  | error e => simp [Except.isOk, Except.toBool]
  | ok img2 =>
    dsimp only
    simp [hsp, Except.isOk, Except.toBool]

/-- Witness for C6 at scale 0. -/
theorem c6_witness :
    ((0 : ℚ) ≤ 0) ∧
    (image_to_color_text sampleOpaque 0 (mkRat 1 2) ['x'] true none).1.isOk
      = false ∧
    Event.resize ∉ (image_to_color_text sampleOpaque 0 (mkRat 1 2) ['x'] true
      none).2 ∧
    Event.write ∉ (image_to_color_text sampleOpaque 0 (mkRat 1 2) ['x'] true
      none).2 :=
  ⟨by decide,
   c6_scale_validation sampleOpaque 0 (mkRat 1 2) ['x'] true none (by decide)⟩

/-- The integer blend is the floor of the spec's exact blending formula. -/
theorem blendByte_eq_floor (s b a : ℕ) (ha : a ≤ 255) :
    (blendByte s b a : ℤ) =
      ⌊(s : ℚ) * ((a : ℚ) / 255) + (b : ℚ) * (1 - (a : ℚ) / 255)⌋ := by
  have hX : (s : ℚ) * ((a : ℚ) / 255) + (b : ℚ) * (1 - (a : ℚ) / 255) =
      ((s * a + b * (255 - a) : ℕ) : ℚ) / ((255 : ℕ) : ℚ) := by
    push_cast [Nat.cast_sub ha]
    field_simp
  rw [hX, Rat.floor_natCast_div_natCast]
  norm_cast

/-- Shape of the compositor's result in the transparency branch. -/
theorem composite_over_bg_ok_of_hasAlpha (img : PILImage) (bg : List Char)
    (r g b : ℕ) (hA : hasAlpha img = true)
    (hr : parseHex ((bg.drop 1).take 2) = Except.ok r)
    (hg : parseHex ((bg.drop 3).take 2) = Except.ok g)
    (hb : parseHex ((bg.drop 5).take 2) = Except.ok b) :
    composite_over_bg img bg = Except.ok
      { width := img.width, height := img.height,
        pixel := fun x y =>
          let p := img.px x y
          (blendByte p.1 r p.2.2.2, blendByte p.2.1 g p.2.2.2,
            blendByte p.2.2.1 b p.2.2.2) } := by
  unfold composite_over_bg
  rw [if_pos hA, hr, hg, hb]

/-- C7: compositing blends each channel as `src*alpha + bg*(1-alpha)` with
the source's straight alpha (the integer result being the floor of the exact
value); consequently a fully transparent pixel over background `#000000`
yields `(0,0,0)` and a fully opaque red pixel yields `(255,0,0)` over any
background. -/
theorem c7_alpha_compositing :
    (∀ s b a : ℕ, a ≤ 255 →
      (blendByte s b a : ℤ) =
        ⌊(s : ℚ) * ((a : ℚ) / 255) + (b : ℚ) * (1 - (a : ℚ) / 255)⌋) ∧
    (∀ img : PILImage, ∀ x y : ℕ, ∀ cimg : RGBImage,
      hasAlpha img = true → (img.px x y).2.2.2 = 0 →
      composite_over_bg img ('#' :: ("000000").toList) = Except.ok cimg →
      cimg.pixel x y = (0, 0, 0)) ∧
    (∀ img : PILImage, ∀ bg_hex : List Char, ∀ x y : ℕ, ∀ cimg : RGBImage,
      img.px x y = (255, 0, 0, 255) →
      composite_over_bg img bg_hex = Except.ok cimg →
      cimg.pixel x y = (255, 0, 0)) := by
  refine ⟨blendByte_eq_floor, ?_, ?_⟩
  · intro img x y cimg hA h0 hok
    rw [composite_over_bg_ok_of_hasAlpha img ('#' :: ("000000").toList)
      0 0 0 hA rfl rfl rfl] at hok
    injection hok with h
    subst h
    simp [blendByte, h0]
  · intro img bg_hex x y cimg hp hok
    unfold composite_over_bg at hok
    cases hA : hasAlpha img with
    | false =>
      rw [hA] at hok
      rw [if_neg (show ¬ (false = true) by decide)] at hok
      injection hok with h
      subst h
      simp [convertRGB, hp]
    | true =>
      rw [hA] at hok
      rw [if_pos (show (true = true) from rfl)] at hok
      cases h1 : parseHex ((bg_hex.drop 1).take 2) with
      | error e => rw [h1] at hok; cases hok
      | ok r =>
        rw [h1] at hok
        cases h2 : parseHex ((bg_hex.drop 3).take 2) with
        | error e => rw [h2] at hok; cases hok
        | ok g =>
          rw [h2] at hok
          cases h3 : parseHex ((bg_hex.drop 5).take 2) with
          | error e => rw [h3] at hok; cases hok
          | ok b =>
            rw [h3] at hok
            injection hok with h
            subst h
            simp [blendByte, hp]

/-- Witness for C7: the formula at `(128, 64, 255)`, a transparent pixel
over `#000000`, and an opaque red pixel over `#123456`. -/
theorem c7_witness :
    ((blendByte 128 64 255 : ℤ) =
      ⌊(128 : ℚ) * ((255 : ℚ) / 255) + (64 : ℚ) * (1 - (255 : ℚ) / 255)⌋) ∧
    compTransparent.pixel 0 0 = (0, 0, 0) ∧
    compOpaqueRed.pixel 0 0 = (255, 0, 0) :=
  ⟨c7_alpha_compositing.1 128 64 255 (by decide),
   c7_alpha_compositing.2.1 sampleTransparent 0 0 compTransparent rfl rfl rfl,
   c7_alpha_compositing.2.2 sampleOpaqueRed ('#' :: ("123456").toList) 0 0
     compOpaqueRed rfl rfl⟩

theorem forRows_ok_of_ne_zero {ar : ℚ} (har : ar ≠ 0) (nhZ : ℤ)
    (cimg : RGBImage) (nw : ℕ) (glyph : List Char) (rich : Bool)
    (l : List ℕ) :
    forRows (renderRowM ar nhZ cimg nw glyph rich) l =
      Except.ok (l.map fun y =>
        renderRow cimg nw (mapped_y ar nhZ y).toNat glyph rich) := by
  induction l with
  | nil => rfl
  | cons y ys ih => simp [forRows, renderRowM, if_neg har, ih]

theorem forRows_length {f : ℕ → Except String (List Char)} {l : List ℕ}
    {rows : List (List Char)} (h : forRows f l = Except.ok rows) :
    rows.length = l.length := by
  induction l generalizing rows with
  | nil =>
    simp only [forRows] at h
    injection h with h
    subst h
    rfl
  | cons y ys ih =>
    simp only [forRows] at h
    cases hf : f y with
    | error e => rw [hf] at h; cases h
    | ok row =>
      rw [hf] at h
      cases hr : forRows f ys with
      | error e => rw [hr] at h; cases h
      | ok rows' =>
        rw [hr] at h
        injection h with h
        subst h
        simp [ih hr]

theorem forRows_mem {f : ℕ → Except String (List Char)} {l : List ℕ}
    {rows : List (List Char)} (h : forRows f l = Except.ok rows) :
    ∀ r ∈ rows, ∃ y ∈ l, f y = Except.ok r := by
  induction l generalizing rows with
  | nil =>
    simp only [forRows] at h
    injection h with h
    subst h
    simp
  | cons y ys ih =>
    simp only [forRows] at h
    cases hf : f y with
    | error e => rw [hf] at h; cases h
    | ok row =>
      rw [hf] at h
      cases hr : forRows f ys with
      | error e => rw [hr] at h; cases h
      | ok rows' =>
        rw [hr] at h
        injection h with h
        subst h
        intro r hrmem
        rcases List.mem_cons.mp hrmem with rfl | hrmem
        · exact ⟨y, List.mem_cons_self y ys, hf⟩
        · rcases ih hr r hrmem with ⟨y', hy', hfy'⟩
          exact ⟨y', List.mem_cons_of_mem y hy', hfy'⟩

theorem renderRowM_ok {ar : ℚ} {nhZ : ℤ} {cimg : RGBImage} {nw : ℕ}
    {glyph : List Char} {rich : Bool} {y : ℕ} {r : List Char}
    (h : renderRowM ar nhZ cimg nw glyph rich y = Except.ok r) :
    r = renderRow cimg nw (mapped_y ar nhZ y).toNat glyph rich := by
  unfold renderRowM at h
  split at h
  · cases h
  · injection h with h
    exact h.symm

theorem hexChar_mem (n : ℕ) : hexChar n ∈ lowerHexDigits := by
  unfold hexChar
  rcases lt_or_ge (n % 16) lowerHexDigits.length with hlt | hge
  · rw [List.getD_eq_getElem?_getD, List.getElem?_eq_getElem hlt]
    exact List.getElem_mem hlt
  · rw [List.getD_eq_default _ _ hge]
    decide

theorem mem_lowerHexDigits_ne_newline {c : Char} (h : c ∈ lowerHexDigits) :
    c ≠ '\n' := by
  have hall : ∀ x ∈ lowerHexDigits, x ≠ '\n' := by decide
  exact hall c h

theorem renderCell_ne_nil (rgb : ℕ × ℕ × ℕ) (glyph : List Char) (rich : Bool)
    (hg : glyph ≠ []) : renderCell rgb glyph rich ≠ [] := by
  unfold renderCell
  split
  · simp
  · exact hg

theorem newline_not_mem_toHexByte (n : ℕ) : '\n' ∉ toHexByte n := by
  intro h
  have h1 := hexChar_mem (n / 16)
  have h2 := hexChar_mem n
  rcases List.mem_cons.mp h with he | h
  · exact mem_lowerHexDigits_ne_newline
      (show ('\n') ∈ lowerHexDigits by rw [he]; exact h1) rfl
  rcases List.mem_cons.mp h with he | h
  · exact mem_lowerHexDigits_ne_newline
      (show ('\n') ∈ lowerHexDigits by rw [he]; exact h2) rfl
  · simp at h

theorem newline_not_mem_renderCell (rgb : ℕ × ℕ × ℕ) (glyph : List Char)
    (rich : Bool) (hg : '\n' ∉ glyph) : '\n' ∉ renderCell rgb glyph rich := by
  unfold renderCell
  split
  · intro hmem
    rcases List.mem_append.mp hmem with hmem | hm7
    rotate_left
    · exact absurd hm7 (by decide)
    rcases List.mem_append.mp hmem with hmem | hm6
    rotate_left
    · exact hg hm6
    rcases List.mem_append.mp hmem with hmem | hm5
    rotate_left
    · exact absurd hm5 (by decide)
    rcases List.mem_append.mp hmem with hmem | hm4
    rotate_left
    · exact newline_not_mem_toHexByte _ hm4
    rcases List.mem_append.mp hmem with hmem | hm3
    rotate_left
    · exact newline_not_mem_toHexByte _ hm3
    rcases List.mem_append.mp hmem with hm1 | hm2
    · exact absurd hm1 (by decide)
    · exact newline_not_mem_toHexByte _ hm2
  · exact hg

theorem renderRow_ne_nil (cimg : RGBImage) (my : ℕ) (glyph : List Char)
    (rich : Bool) {nw : ℕ} (hnw : 1 ≤ nw) (hg : glyph ≠ []) :
    renderRow cimg nw my glyph rich ≠ [] := by
  unfold renderRow
  obtain ⟨m, rfl⟩ : ∃ m, nw = m + 1 := ⟨nw - 1, by omega⟩
  rw [List.range_succ_eq_map]
  intro h
  rw [List.map_cons, List.flatten_cons, List.append_eq_nil] at h
  exact renderCell_ne_nil _ _ _ hg h.1

theorem newline_not_mem_renderRow (cimg : RGBImage) (nw my : ℕ)
    (glyph : List Char) (rich : Bool) (hg : '\n' ∉ glyph) :
    '\n' ∉ renderRow cimg nw my glyph rich := by
  unfold renderRow
  intro h
  rcases List.mem_flatten.mp h with ⟨l, hl, hcl⟩
  rcases List.mem_map.mp hl with ⟨x, _, rfl⟩
  exact newline_not_mem_renderCell _ _ _ hg hcl

theorem pyjoin_ne_nil {sep : List Char} {ls : List (List Char)}
    (hls : ls ≠ []) (h : ∀ l ∈ ls, l ≠ []) : pyjoin sep ls ≠ [] := by
  cases ls with
  | nil => exact absurd rfl hls
  | cons l ls' =>
    cases ls' with
    | nil => exact h l (List.mem_cons_self l [])
    | cons l2 ls'' =>
      intro habs
      rw [show pyjoin sep (l :: l2 :: ls'') = l ++ sep ++ pyjoin sep (l2 :: ls'')
          from rfl, List.append_eq_nil, List.append_eq_nil] at habs
      exact h l (List.mem_cons_self l (l2 :: ls'')) habs.1.1

theorem count_pyjoin_newline {ls : List (List Char)}
    (h : ∀ l ∈ ls, '\n' ∉ l) (hls : ls ≠ []) :
    (pyjoin ['\n'] ls).count '\n' = ls.length - 1 := by
  induction ls with
  | nil => exact absurd rfl hls
  | cons l ls' ih =>
    cases ls' with
    | nil =>
      show l.count '\n' = 0
      exact List.count_eq_zero.mpr (h l (List.mem_cons_self l []))
    | cons l2 ls'' =>
      have hcount := ih (fun x hx => h x (List.mem_cons_of_mem l hx))
        (by simp)
      show ((l ++ ['\n']) ++ pyjoin ['\n'] (l2 :: ls'')).count '\n' = _
      rw [List.count_append, List.count_append, hcount,
        List.count_eq_zero.mpr (h l (List.mem_cons_self l (l2 :: ls'')))]
      have hone : List.count '\n' ['\n'] = 1 := by decide
      rw [hone]
      simp only [List.length_cons]
      omega

theorem getLast?_ne_of_not_mem {c : Char} {l : List Char} (h : c ∉ l) :
    l.getLast? ≠ some c := by
  induction l with
  | nil => simp
  | cons a as ih =>
    cases as with
    | nil =>
      rw [List.getLast?_singleton]
      intro habs
      injection habs with he
      exact h (he ▸ List.mem_cons_self a [])
    | cons b bs =>
      rw [List.getLast?_cons_cons]
      exact ih (fun hc => h (List.mem_cons_of_mem a hc))

theorem pyjoin_getLast?_ne_newline {ls : List (List Char)}
    (hne : ∀ l ∈ ls, l ≠ []) (hfree : ∀ l ∈ ls, '\n' ∉ l) (hls : ls ≠ []) :
    (pyjoin ['\n'] ls).getLast? ≠ some '\n' := by
  induction ls with
  | nil => exact absurd rfl hls
  | cons l ls' ih =>
    cases ls' with
    | nil => exact getLast?_ne_of_not_mem (hfree l (List.mem_cons_self l []))
    | cons l2 ls'' =>
      show ((l ++ ['\n']) ++ pyjoin ['\n'] (l2 :: ls'')).getLast? ≠ some '\n'
      rw [List.getLast?_append]
      have hY : pyjoin ['\n'] (l2 :: ls'') ≠ [] :=
        pyjoin_ne_nil (by simp) (fun x hx => hne x (List.mem_cons_of_mem l hx))
      have hYl := ih (fun x hx => hne x (List.mem_cons_of_mem l hx))
        (fun x hx => hfree x (List.mem_cons_of_mem l hx)) (by simp)
      cases hy : (pyjoin ['\n'] (l2 :: ls'')).getLast? with
      | none => exact absurd (List.getLast?_eq_none_iff.mp hy) hY
      | some c =>
        rw [hy] at hYl
        exact hYl

theorem composite_over_bg_dims {img : PILImage} {bgs : List Char}
    {img2 : RGBImage} (h : composite_over_bg img bgs = Except.ok img2) :
    img2.width = img.width ∧ img2.height = img.height := by
  unfold composite_over_bg at h
  cases hA : hasAlpha img with
  | false =>
    rw [hA, if_neg (show ¬ (false = true) by decide)] at h
    injection h with h
    subst h
    exact ⟨rfl, rfl⟩
  | true =>
    rw [hA, if_pos rfl] at h
    cases h1 : parseHex ((bgs.drop 1).take 2) with
    | error e => rw [h1] at h; cases h
    | ok r =>
      rw [h1] at h
      cases h2 : parseHex ((bgs.drop 3).take 2) with
      | error e => rw [h2] at h; cases h
      | ok g =>
        rw [h2] at h
        cases h3 : parseHex ((bgs.drop 5).take 2) with
        | error e => rw [h3] at h; cases h
        | ok b =>
          rw [h3] at h
          injection h with h
          subst h
          exact ⟨rfl, rfl⟩

theorem step_bg_dims {img : PILImage} {bg : Option (List Char)}
    {img2 : RGBImage} (h : step_bg img bg = Except.ok img2) :
    img2.width = img.width ∧ img2.height = img.height := by
  unfold step_bg at h
  cases bg with
  | none =>
    dsimp only at h
    injection h with h
    subst h
    exact ⟨rfl, rfl⟩
  | some bgs =>
    dsimp only at h
    cases he : ensure_hex_color bgs with
    | error e => rw [he] at h; cases h
    | ok hx =>
      rw [he] at h
      exact composite_over_bg_dims h

/-- C8 (amended): every successful conversion writes exactly the
`rendered_h` rendered line-strings joined by newline with one newline
appended; when additionally the glyph is nonempty and newline-free (as the
default glyph is), the document ends with exactly one trailing newline and
its newline count — its line count — equals `rendered_h`. -/
theorem c8_serialization (img : PILImage) (sp ar : ℚ) (glyph : List Char)
    (rich : Bool) (bg : Option (List Char)) (doc : List Char)
    (evs : List Event)
    (hrun : image_to_color_text img sp ar glyph rich bg =
      (Except.ok doc, evs)) :
    ∃ lines : List (List Char),
      doc = pyjoin ['\n'] lines ++ ['\n'] ∧
      lines.length = (rendered_h (new_h img.height sp) ar).toNat ∧
      (glyph ≠ [] → '\n' ∉ glyph →
        doc.count '\n' = (rendered_h (new_h img.height sp) ar).toNat ∧
        doc.getLast? = some '\n' ∧ doc.dropLast.getLast? ≠ some '\n') := by
  unfold image_to_color_text at hrun
  cases hstep : step_bg img bg with
  | error e => rw [hstep] at hrun; simp at hrun
  | ok img2 =>
    rw [hstep] at hrun
    dsimp only at hrun
    by_cases hsp : sp ≤ 0
    · rw [if_pos hsp] at hrun
      simp at hrun
    · rw [if_neg hsp] at hrun
      have hdimh : img2.height = img.height := (step_bg_dims hstep).2
      split at hrun
      · simp at hrun
      · next lines heq =>
        rw [Prod.mk.injEq] at hrun
        obtain ⟨h1, _⟩ := hrun
        injection h1 with h1
        subst h1
        refine ⟨lines, rfl, ?_, ?_⟩
        · rw [forRows_length heq, List.length_range, hdimh]
        · intro hg hgn
          have hlen : lines.length =
              (rendered_h (new_h img.height sp) ar).toNat := by
            rw [forRows_length heq, List.length_range, hdimh]
          have h1r : 1 ≤ (rendered_h (new_h img.height sp) ar).toNat := by
            have := one_le_rendered_h (new_h img.height sp) ar
            omega
          have hlines_pos : lines ≠ [] :=
            List.ne_nil_of_length_pos (by omega)
          have hprop : ∀ r ∈ lines, r ≠ [] ∧ '\n' ∉ r := by
            intro r hr
            rcases forRows_mem heq r hr with ⟨y, _, hfy⟩
            rw [renderRowM_ok hfy]
            have hnw : 1 ≤ (new_w img2.width sp).toNat := by
              have := one_le_new_w img2.width sp
              omega
            exact ⟨renderRow_ne_nil _ _ _ _ hnw hg,
              newline_not_mem_renderRow _ _ _ _ _ hgn⟩
          refine ⟨?_, ?_, ?_⟩
          · rw [List.count_append, count_pyjoin_newline
              (fun l hl => (hprop l hl).2) hlines_pos,
              show List.count '\n' ['\n'] = 1 from by decide]
            omega
          · exact List.getLast?_concat _
          · rw [List.dropLast_concat]
            exact pyjoin_getLast?_ne_newline (fun l hl => (hprop l hl).1)
              (fun l hl => (hprop l hl).2) hlines_pos

/-- Witness for the amended C8 on a concrete 1×2 image at scale 100,
aspect 1. -/
theorem c8_witness :
    image_to_color_text sampleOpaque (mkRat 100 1) (mkRat 1 1) ['x'] false
      none = (Except.ok ['x', '\n', 'x', '\n'],
        [Event.resize, Event.resize, Event.write]) ∧
    ∃ lines : List (List Char),
      ['x', '\n', 'x', '\n'] = pyjoin ['\n'] lines ++ ['\n'] ∧
      lines.length =
        (rendered_h (new_h sampleOpaque.height (mkRat 100 1))
          (mkRat 1 1)).toNat ∧
      (['x'] ≠ [] → '\n' ∉ ['x'] →
        List.count '\n' ['x', '\n', 'x', '\n'] =
          (rendered_h (new_h sampleOpaque.height (mkRat 100 1))
            (mkRat 1 1)).toNat ∧
        ['x', '\n', 'x', '\n'].getLast? = some '\n' ∧
        ['x', '\n', 'x', '\n'].dropLast.getLast? ≠ some '\n') :=
  ⟨rfl,
   c8_serialization sampleOpaque (mkRat 100 1) (mkRat 1 1) ['x'] false none
     ['x', '\n', 'x', '\n'] [Event.resize, Event.resize, Event.write] rfl⟩

/-- C8 counterexample: with the (legal) glyph `"\n"` the conversion
succeeds, yet the written text has four newlines while `rendered_h = 2`: its
line count is not `rendered_h` and it does not end with exactly one trailing
newline. -/
theorem c8_counterexample :
    (image_to_color_text sampleOpaque (mkRat 100 1) (mkRat 1 1) ['\n'] false
      none).1 = Except.ok ['\n', '\n', '\n', '\n'] ∧
    (rendered_h (new_h sampleOpaque.height (mkRat 100 1)) (mkRat 1 1)).toNat
      = 2 ∧
    List.count '\n' ['\n', '\n', '\n', '\n'] ≠ 2 ∧
    ['\n', '\n', '\n', '\n'].dropLast.getLast? = some '\n' :=
  ⟨rfl, by decide, by decide, by decide⟩

/-- The only error the normalizer raises is the length `ValueError`. -/
theorem ensure_hex_color_error {s : List Char} {e : String}
    (h : ensure_hex_color s = Except.error e) :
    e = "Background color must be hex like #fff or #ffffff" := by
  simp only [ensure_hex_color] at h
  split at h
  · cases h
  · injection h with h
    exact h.symm

theorem parseHexAux_error : ∀ (l : List Char) (acc : ℕ) (e : String),
    parseHexAux l acc = Except.error e →
    e = "invalid literal for int() with base 16" := by
  intro l
  induction l with
  | nil => intro acc e h; cases h
  | cons c cs ih =>
    intro acc e h
    simp only [parseHexAux] at h
    cases hv : hexVal c with
    | some v => rw [hv] at h; exact ih _ _ h
    | none => rw [hv] at h; injection h with h; exact h.symm

/-- The only error `int(s, 16)` raises is the parse `ValueError`. -/
theorem parseHex_error {l : List Char} {e : String}
    (h : parseHex l = Except.error e) :
    e = "invalid literal for int() with base 16" := by
  unfold parseHex at h
  split at h
  · injection h with h
    exact h.symm
  · exact parseHexAux_error _ _ _ h

/-- The only error the compositor raises is the hex-parse `ValueError`. -/
theorem composite_over_bg_error {img : PILImage} {bgs : List Char}
    {e : String} (h : composite_over_bg img bgs = Except.error e) :
    e = "invalid literal for int() with base 16" := by
  unfold composite_over_bg at h
  cases hA : hasAlpha img with
  | false =>
    rw [hA, if_neg (show ¬ (false = true) by decide)] at h
    cases h
  | true =>
    rw [hA, if_pos rfl] at h
    cases h1 : parseHex ((bgs.drop 1).take 2) with
    | error e1 =>
      rw [h1] at h
      injection h with h
      exact h ▸ parseHex_error h1
    | ok r =>
      rw [h1] at h
      cases h2 : parseHex ((bgs.drop 3).take 2) with
      | error e2 =>
        rw [h2] at h
        injection h with h
        exact h ▸ parseHex_error h2
      | ok g =>
        rw [h2] at h
        cases h3 : parseHex ((bgs.drop 5).take 2) with
        | error e3 =>
          rw [h3] at h
          injection h with h
          exact h ▸ parseHex_error h3
        | ok b =>
          rw [h3] at h
          cases h

/-- Errors of the background stage: the length error or the parse error. -/
theorem step_bg_error {img : PILImage} {bg : Option (List Char)} {e : String}
    (h : step_bg img bg = Except.error e) :
    e = "Background color must be hex like #fff or #ffffff" ∨
    e = "invalid literal for int() with base 16" := by
  unfold step_bg at h
  cases bg with
  | none => dsimp only at h; cases h
  | some bgs =>
    dsimp only at h
    cases he : ensure_hex_color bgs with
    | error e1 =>
      rw [he] at h
      injection h with h
      exact Or.inl (h ▸ ensure_hex_color_error he)
    | ok hx =>
      rw [he] at h
      exact Or.inr (composite_over_bg_error h)

/-- With a zero aspect ratio the first loop iteration raises
`ZeroDivisionError`. -/
theorem forRows_zero_ar (nhZ : ℤ) (cimg : RGBImage) (nw : ℕ)
    (glyph : List Char) (rich : Bool) (y : ℕ) (l : List ℕ) :
    forRows (renderRowM 0 nhZ cimg nw glyph rich) (y :: l) =
      Except.error ("float division by zero") := by
  simp [forRows, renderRowM]

/-- C9: hex normalization never inspects the characters: a 3- or
6-character background passes it whatever its characters are (`zzz`
normalizes to `#zzzzzz`); the digits are only parsed during compositing, so,
with otherwise valid parameters, the conversion with background `zzz` fails
exactly when the image carries transparency and succeeds for an opaque
image. -/
theorem c9_hex_chars_unvalidated :
    ensure_hex_color ['z','z','z'] =
      Except.ok ('#' :: ['z','z','z','z','z','z']) ∧
    (∀ s : List Char,
      (dropHash (pystrip s)).length = 3 ∨ (dropHash (pystrip s)).length = 6 →
      (ensure_hex_color s).isOk = true) ∧
    (∀ img : PILImage, ∀ sp ar : ℚ, ∀ glyph : List Char, ∀ rich : Bool,
      0 < sp → ar ≠ 0 →
      ((image_to_color_text img sp ar glyph rich (some ['z','z','z'])).1.isOk
          = false ↔ hasAlpha img = true)) := by
  refine ⟨rfl, ?_, ?_⟩
  · intro s hlen
    exact (ensure_hex_color_isOk_iff s).mpr hlen
  · intro img sp ar glyph rich hsp har
    unfold image_to_color_text
    have hstep : step_bg img (some ['z','z','z']) =
        composite_over_bg img ('#' :: ['z','z','z','z','z','z']) := rfl
    cases hA : hasAlpha img with
    | true =>
      have hcomp : composite_over_bg img ('#' :: ['z','z','z','z','z','z']) =
          Except.error ("invalid literal for int() with base 16") := by
        unfold composite_over_bg
        rw [hA]
        rfl
      rw [hstep, hcomp]
      simp [Except.isOk, Except.toBool]
    | false =>
      have hcomp : composite_over_bg img ('#' :: ['z','z','z','z','z','z']) =
          Except.ok (convertRGB img) := by
        unfold composite_over_bg
        rw [hA]
        rfl
      rw [hstep, hcomp]
      dsimp only
      rw [if_neg (not_le.mpr hsp)]
      rw [forRows_ok_of_ne_zero har _ _ _ _ _ _]
      simp [Except.isOk, Except.toBool, hA]

/-- Witness for C9 at an image with alpha and an opaque image. -/
theorem c9_witness :
    ((0 : ℚ) < 25 ∧ (mkRat 1 2 : ℚ) ≠ 0) ∧
    ((image_to_color_text sampleOpaqueRed 25 (mkRat 1 2) ['x'] true
        (some ['z','z','z'])).1.isOk = false ↔
      hasAlpha sampleOpaqueRed = true) ∧
    ((image_to_color_text sampleOpaque 25 (mkRat 1 2) ['x'] true
        (some ['z','z','z'])).1.isOk = false ↔
      hasAlpha sampleOpaque = true) :=
  ⟨⟨by decide, by decide⟩,
   c9_hex_chars_unvalidated.2.2 sampleOpaqueRed 25 (mkRat 1 2) ['x'] true
     (by decide) (by decide),
   c9_hex_chars_unvalidated.2.2 sampleOpaque 25 (mkRat 1 2) ['x'] true
     (by decide) (by decide)⟩

/-- C10: the aspect ratio is never validated: with aspect ratio zero the row
mapping divides by zero and the pipeline raises `ZeroDivisionError`
(`rendered_h ≥ 1`, so the division is always reached); conversely no run
with a nonzero aspect ratio ever produces that error. -/
theorem c10_division_by_zero :
    (∀ img : PILImage, ∀ sp : ℚ, ∀ glyph : List Char, ∀ rich : Bool,
      0 < sp →
      (image_to_color_text img sp 0 glyph rich none).1 =
        Except.error ("float division by zero")) ∧
    (∀ img : PILImage, ∀ sp ar : ℚ, ∀ glyph : List Char, ∀ rich : Bool,
      ∀ bg : Option (List Char), ar ≠ 0 →
      (image_to_color_text img sp ar glyph rich bg).1 ≠
        Except.error ("float division by zero")) := by
  constructor
  · intro img sp glyph rich hsp
    unfold image_to_color_text
    have hstep : step_bg img none = Except.ok (convertRGB img) := rfl
    rw [hstep]
    dsimp only
    rw [if_neg (not_le.mpr hsp)]
    have hrh : 1 ≤ (rendered_h (new_h (convertRGB img).height sp) 0).toNat := by
      have := one_le_rendered_h (new_h (convertRGB img).height sp) 0
      omega
    obtain ⟨m, hm⟩ :
        ∃ m, (rendered_h (new_h (convertRGB img).height sp) 0).toNat = m + 1 :=
      ⟨(rendered_h (new_h (convertRGB img).height sp) 0).toNat - 1, by omega⟩
    rw [hm, List.range_succ_eq_map, forRows_zero_ar]
  · intro img sp ar glyph rich bg har
    unfold image_to_color_text
    cases hstep : step_bg img bg with
    | error e =>
      dsimp only
      intro habs
      injection habs with habs
      rcases step_bg_error hstep with he | he <;> rw [he] at habs
      · exact absurd habs (by decide)
      · exact absurd habs (by decide)
    | ok img2 =>
      dsimp only
      by_cases hsp : sp ≤ 0
      · rw [if_pos hsp]
        intro habs
        injection habs with habs
        exact absurd habs (by decide)
      · rw [if_neg hsp]
        rw [forRows_ok_of_ne_zero har _ _ _ _ _ _]
        intro habs
        cases habs

/-- Witness for C10 at scale 25, aspect 0 and aspect 1/2. -/
theorem c10_witness :
    ((0 : ℚ) < 25 ∧ (mkRat 1 2 : ℚ) ≠ 0) ∧
    (image_to_color_text sampleOpaque 25 0 ['x'] true none).1 =
      Except.error ("float division by zero") ∧
    (image_to_color_text sampleOpaque 25 (mkRat 1 2) ['x'] true none).1 ≠
      Except.error ("float division by zero") :=
  ⟨⟨by decide, by decide⟩,
   c10_division_by_zero.1 sampleOpaque 25 ['x'] true (by decide),
   c10_division_by_zero.2 sampleOpaque 25 (mkRat 1 2) ['x'] true none
     (by decide)⟩

end Catweb
